import Mathlib

/-!
Verification of the devdocs-indexer core subsystems: the recursive URL
discovery (frontier traversal, URL normalization/filtering) and the
boundary-aware chunker.  Python sources embedded shallowly:
`src/utils/chunker.py` and `src/scrapers/base.py`.

External collaborators (tiktoken encoding, llama_index SentenceSplitter,
urllib.parse, BeautifulSoup, fetch_url) are treated as parameters, exactly
as the specification designates them out-of-scope black boxes.
-/

/-! ## Character/string primitives mirroring the Python operations used -/

/-- Python `s.split("\n")` at the character-list level. -/
def splitNL : List Char → List (List Char)
  | [] => [[]]
  | c :: cs =>
    let r := splitNL cs
    if c = '\n' then [] :: r
    else (c :: r.headD []) :: r.tail

/-- Python `"\n".join(lines)` at the character-list level. -/
def joinNL : List (List Char) → List Char
  | [] => []
  | [l] => l
  | l :: ls => l ++ '\n' :: joinNL ls

/-- Python `needle in haystack` (substring containment) on strings. -/
def strContains (haystack needle : String) : Bool :=
  haystack.data.tails.any (fun t => needle.data.isPrefixOf t)

/-- Python `s.startswith(p)`. -/
def strStartsWith (s p : String) : Bool :=
  p.data.isPrefixOf s.data

/-- Python `s.lower()` (ASCII case folding, faithful on the characters the
scraper configuration uses). -/
def pyLower (s : String) : String :=
  String.mk (s.data.map Char.toLower)

/-- Python whitespace, as recognised by `str.strip()` on ASCII text. -/
def pyIsSpace (c : Char) : Bool :=
  c == ' ' || c == '\t' || c == '\n' || c == '\r' || c == '\x0b' || c == '\x0c'

/-- Python `s.strip()` (both-ends whitespace removal). -/
def pyStrip (s : String) : String :=
  String.mk (((s.data.dropWhile pyIsSpace).reverse.dropWhile pyIsSpace).reverse)

/-- Python `url.split("#")[0]`: everything before the first `'#'`. -/
def takeBeforeHash (s : String) : String :=
  String.mk (s.data.takeWhile (fun c => c ≠ '#'))

/-- Python `url.rstrip("/")`: remove all trailing slashes. -/
def rstripSlashes (s : String) : String :=
  String.mk ((s.data.reverse.dropWhile (fun c => c = '/')).reverse)

/-! ## Chunker data model (`src/utils/chunker.py`) -/

/-- Values stored in a chunk metadata dictionary. -/
inductive MVal where
  | s (v : String)
  | n (v : Nat)
  | b (v : Bool)
deriving DecidableEq

/-- A Python metadata dict, modelled by its lookup function. -/
def MDict : Type := String → Option MVal

/-- The empty metadata dict `{}`. -/
def mdEmpty : MDict := fun _ => none

/-- Python `{**d, k: v}` (add or overwrite one key). -/
def mdSet (d : MDict) (k : String) (v : MVal) : MDict :=
  fun k' => if k' = k then some v else d k'

/-- One chunk dictionary `{"content": ..., "metadata": ..., "tokens": ...}`. -/
structure Chunk where
  content : String
  metadata : MDict
  tokens : Nat

/-- The `SmartChunker` state: configured size plus the two external
collaborators (tiktoken token counting and the llama_index sentence
splitter), kept abstract as the spec directs. -/
structure SmartChunker where
  chunk_size : Nat
  overlap : Nat
  /-- `len(self.encoding.encode(text))` -/
  countTokens : String → Nat
  /-- contents of `self.splitter.get_nodes_from_documents([doc])` -/
  splitNodes : String → List String

/-- `SmartChunker.chunk_text`: empty/whitespace guard, then one chunk per
splitter node, each carrying `{**metadata, "chunk_index": i,
"chunk_count": len(nodes)}`. -/
def chunk_text (c : SmartChunker) (text : String) (metadata : MDict) : List Chunk :=
  if pyStrip text = "" then []
  else
    let nodes := c.splitNodes text
    nodes.enum.map (fun p =>
      { content := p.2
        metadata := mdSet (mdSet metadata "chunk_index" (.n p.1)) "chunk_count" (.n nodes.length)
        tokens := c.countTokens p.2 })

/-- Python `re.compile(r"^```.*$", re.MULTILINE).match(line)` on a single
line (no newline inside): true iff the line starts with three backticks. -/
def isFence (l : List Char) : Bool :=
  "```".data.isPrefixOf l

/-- The scanning loop of `SmartChunker._split_preserving_code_blocks`,
kept at the level of line lists: arguments are the remaining lines, the
`current_text` accumulator and the `in_code_block` flag. -/
def splitLoopL : List (List Char) → List (List Char) → Bool → List (List (List Char) × Bool)
  | [], current, inCode =>
    if current = [] then [] else [(current, inCode)]
  | line :: rest, current, inCode =>
    if isFence line then
      if inCode then
        (current ++ [line], true) :: splitLoopL rest [] false
      else
        (if current = [] then [] else [(current, false)]) ++ splitLoopL rest [line] true
    else
      splitLoopL rest (current ++ [line]) inCode

/-- `SmartChunker._split_preserving_code_blocks`: split into
`("\n".join(lines), is_code_block)` parts. -/
def split_preserving_code_blocks (markdown : String) : List (String × Bool) :=
  (splitLoopL (splitNL markdown.data) [] false).map
    (fun p => (String.mk (joinNL p.1), p.2))

/-- `SmartChunker.chunk_markdown`. -/
def chunk_markdown (c : SmartChunker) (markdown : String) (metadata : MDict)
    (preserve_code_blocks : Bool) : List Chunk :=
  if preserve_code_blocks then
    (split_preserving_code_blocks markdown).flatMap (fun part =>
      if part.2 then
        if c.countTokens part.1 ≤ c.chunk_size then
          [{ content := part.1
             metadata := mdSet metadata "is_code_block" (.b true)
             tokens := c.countTokens part.1 }]
        else chunk_text c part.1 metadata
      else chunk_text c part.1 metadata)
  else chunk_text c markdown metadata

/-! ## Scraper data model (`src/scrapers/base.py`) -/

/-- The external `urllib.parse` collaborators used by `normalize_url`:
`urlparse(base).scheme`, `urlparse(base).netloc` and `urljoin`. -/
structure UrlLib where
  scheme : String → String
  netloc : String → String
  urljoin : String → String → String

/-- `BaseScraper.normalize_url(url, base)` (with `base` already resolved,
mirroring `base = base or self.base_url`). -/
def normalize_url (lib : UrlLib) (url : String) (base : String) : String :=
  if strStartsWith url "/" then
    lib.scheme base ++ "://" ++ lib.netloc base ++ url
  else if !strStartsWith url "http" then
    lib.urljoin base url
  else
    rstripSlashes (takeBeforeHash url)

/-- The `common_skips` literal list from `BaseScraper.should_skip`. -/
def common_skips : List String :=
  ["#", "javascript:", "mailto:", ".pdf", ".zip", ".png", ".jpg", ".jpeg", ".gif", ".svg"]

/-- `BaseScraper.should_skip(url)` with the instance state
(`visited_urls`, `base_url`, `skip_patterns`) passed explicitly. -/
def should_skip (visited : List String) (base_url : String)
    (skip_patterns : List String) (url : String) : Bool :=
  if url ∈ visited then true
  else if !strStartsWith url base_url then true
  else if skip_patterns.any (fun pattern => strContains url pattern) then true
  else common_skips.any (fun skip => strContains (pyLower url) skip)

/-! ## Link extraction (`BaseScraper.extract_links_from_page`)

The fetch (`fetch_url`), HTML parse (`BeautifulSoup`), scoped selection
(`soup.select_one`) and anchor harvesting (`soup.find_all("a", href=True)`)
are the external collaborators; each fallible one returns `Except`/`Option`
so that the Python `try`/`except` becomes an explicit error path. -/

/-- The external collaborators consumed by `extract_links_from_page`,
over an abstract parsed-document type `Soup`. -/
structure HtmlLib (Soup : Type) where
  /-- `await fetch_url(url)`; may fail. -/
  fetch : String → Except String String
  /-- `BeautifulSoup(html, "lxml")`; may fail. -/
  parse : String → Except String Soup
  /-- `soup.select_one(selector)`. -/
  selectOne : Soup → String → Option Soup
  /-- the `href` attributes of `soup.find_all("a", href=True)`, in order. -/
  hrefs : Soup → List String

/-- The order-preserving, first-occurrence deduplication loop at the end of
`extract_links_from_page`. -/
def dedupFirst (seen : List String) : List String → List String
  | [] => []
  | x :: xs =>
    if x ∈ seen then dedupFirst seen xs
    else x :: dedupFirst (x :: seen) xs

/-- The body of the `try:` block of `extract_links_from_page`: any
`Except.error` outcome corresponds to a raised Python exception. -/
def extract_links_body {Soup : Type} (h : HtmlLib Soup) (lib : UrlLib)
    (visited : List String) (base_url : String) (skip_patterns : List String)
    (url : String) (selector : Option String) : Except String (List String) :=
  match h.fetch url with
  | .error e => .error e
  | .ok html =>
    match h.parse html with
    | .error e => .error e
    | .ok soup =>
      match (match selector with
        | some sel => h.selectOne soup sel
        | none => some soup) with
      | none => .ok []  -- `if not container: return []`
      | some container =>
        .ok (dedupFirst []
          (((h.hrefs container).map (fun href => normalize_url lib href url)).filter
            (fun absolute_url => !should_skip visited base_url skip_patterns absolute_url)))

/-- `extract_links_from_page` as seen by the traverser: the surrounding
`except Exception: return []` turns every failure into the empty list. -/
def extract_links_from_page {Soup : Type} (h : HtmlLib Soup) (lib : UrlLib)
    (visited : List String) (base_url : String) (skip_patterns : List String)
    (url : String) (selector : Option String) : List String :=
  match extract_links_body h lib visited base_url skip_patterns url selector with
  | .ok links => links
  | .error _ => []

/-! ## Recursive crawl (`BaseScraper.crawl_recursively`)

The loop state is the pair `(all_urls, to_visit)`; `links` abstracts the
value of `await self.extract_links_from_page(url, link_selector)` for each
page, as the claims direct ("link-extraction result"). -/

/-- The mutable state of the `while to_visit:` loop. -/
structure CrawlState where
  /-- `all_urls` (a Python set; membership is what matters). -/
  discovered : List String
  /-- `to_visit`, a FIFO list of `(url, depth)` pairs. -/
  queue : List (String × Nat)
deriving DecidableEq

/-- One iteration of the `while` loop of `crawl_recursively`
(identity on an empty queue, where the loop exits). -/
def crawlStep (links : String → List String) (max_depth : Nat)
    (s : CrawlState) : CrawlState :=
  match s.queue with
  | [] => s
  | (url, depth) :: rest =>
    if url ∈ s.discovered ∨ max_depth < depth then ⟨s.discovered, rest⟩
    else
      let disc' := s.discovered ++ [url]
      ⟨disc', rest ++ ((links url).filter (fun l => decide (l ∉ disc'))).map
        (fun l => (l, depth + 1))⟩

/-- The loop state after `n` iterations, starting from
`all_urls = set()`, `to_visit = [(start_url, 0)]`. -/
def crawlSeq (links : String → List String) (max_depth : Nat)
    (start_url : String) : Nat → CrawlState
  | 0 => ⟨[], [(start_url, 0)]⟩
  | n + 1 => crawlStep links max_depth (crawlSeq links max_depth start_url n)

/-- `v` is reachable from `seed` by following at most `n` links, where
`links u` lists the pages linked from `u`. -/
inductive ReachWithin (links : String → List String) (seed : String) :
    Nat → String → Prop where
  | refl : ∀ n, ReachWithin links seed n seed
  | step : ∀ n u v, ReachWithin links seed n u → v ∈ links u →
      ReachWithin links seed (n + 1) v

/-! ## Helper lemmas on the line splitter -/

theorem splitNL_ne_nil (l : List Char) : splitNL l ≠ [] := by
  cases l with
  | nil => simp [splitNL]
  | cons c cs =>
    simp only [splitNL]
    split
    · simp
    · simp

theorem join_splitNL (l : List Char) : joinNL (splitNL l) = l := by
  induction l with
  | nil => simp [splitNL, joinNL]
  | cons c cs ih =>
    obtain ⟨rh, rt, hr⟩ := List.exists_cons_of_ne_nil (splitNL_ne_nil cs)
    simp only [splitNL]
    by_cases hc : c = '\n'
    · subst hc
      rw [if_pos rfl, hr]
      rw [hr] at ih
      cases rt with
      | nil => simpa [joinNL] using ih
      | cons b t => simpa [joinNL] using ih
    · rw [if_neg hc, hr]
      rw [hr] at ih
      cases rt with
      | nil => simpa [joinNL] using ih
      | cons b t => simpa [joinNL] using ih

theorem splitNL_all {p : Char → Bool} {l : List Char}
    (h : l.all p = true) : ∀ line ∈ splitNL l, line.all p = true := by
  induction l with
  | nil =>
    intro line hline
    simp [splitNL] at hline
    simp [hline]
  | cons c cs ih =>
    simp only [List.all_cons, Bool.and_eq_true] at h
    intro line hline
    obtain ⟨rh, rt, hr⟩ := List.exists_cons_of_ne_nil (splitNL_ne_nil cs)
    simp only [splitNL] at hline
    by_cases hc : c = '\n'
    · rw [if_pos hc] at hline
      rcases List.mem_cons.mp hline with h1 | h1
      · simp [h1]
      · exact ih h.2 line h1
    · rw [if_neg hc, hr] at hline
      simp only [List.headD_cons, List.tail_cons] at hline
      have ih' := ih h.2
      rw [hr] at ih'
      rcases List.mem_cons.mp hline with h1 | h1
      · subst h1
        simp only [List.all_cons, Bool.and_eq_true]
        exact ⟨h.1, ih' rh (List.mem_cons_self _ _)⟩
      · exact ih' line (List.mem_cons_of_mem _ h1)

theorem isFence_of_all_space {line : List Char}
    (h : line.all pyIsSpace = true) : isFence line = false := by
  cases line with
  | nil => rfl
  | cons c cs =>
    simp only [List.all_cons, Bool.and_eq_true] at h
    by_contra hne
    rw [Bool.not_eq_false] at hne
    have hstep : isFence (c :: cs) = (('`' == c) && List.isPrefixOf ['`', '`'] cs) := rfl
    rw [hstep, Bool.and_eq_true] at hne
    have hc : c = '`' := (beq_iff_eq.mp hne.1).symm
    rw [hc] at h
    simp [pyIsSpace] at h

theorem pyStrip_eq_empty {text : String}
    (h : text.data.all pyIsSpace = true) : pyStrip text = "" := by
  have h1 : text.data.dropWhile pyIsSpace = [] := by
    rw [List.dropWhile_eq_nil_iff]
    intro x hx
    exact List.all_eq_true.mp h x hx
  simp [pyStrip, h1]

theorem splitLoopL_no_fence :
    ∀ (lines cur : List (List Char)) (ic : Bool),
      (∀ l ∈ lines, isFence l = false) →
      splitLoopL lines cur ic =
        if cur ++ lines = [] then [] else [(cur ++ lines, ic)] := by
  intro lines
  induction lines with
  | nil => intro cur ic _; simp [splitLoopL]
  | cons line rest ih =>
    intro cur ic hnf
    have hline : isFence line = false := hnf line (List.mem_cons_self _ _)
    have hrest : ∀ l ∈ rest, isFence l = false :=
      fun l hl => hnf l (List.mem_cons_of_mem _ hl)
    simp only [splitLoopL, hline, Bool.false_eq_true, if_false]
    rw [ih (cur ++ [line]) ic hrest]
    simp

/-- Chunking a document whose every line is fence-free yields a single
text part carrying the whole document. -/
theorem split_no_fence {markdown : String}
    (h : ∀ l ∈ splitNL markdown.data, isFence l = false) :
    split_preserving_code_blocks markdown = [(markdown, false)] := by
  unfold split_preserving_code_blocks
  rw [splitLoopL_no_fence _ _ _ h]
  simp only [List.nil_append, splitNL_ne_nil, if_false]
  simp [join_splitNL]

/-! ## Shape of the parts produced by the code-block splitter -/

/-- Shape of a well-formed part: a code part starts with a fence line and
its later lines up to (but excluding) a closing fence are fence-free; a
text part is nonempty and wholly fence-free. -/
def PartOK : List (List Char) × Bool → Prop
  | (ls, true) => ∃ f mid, ls = f :: mid ∧ isFence f = true
  | (ls, false) => ls ≠ [] ∧ ∀ l ∈ ls, isFence l = false

/-- A code part that was closed by a second fence line: opening fence,
fence-free interior, closing fence. -/
def CodeTerminated (p : List (List Char) × Bool) : Prop :=
  ∃ f mid g, p.1 = f :: mid ++ [g] ∧ isFence f = true ∧ isFence g = true ∧
    ∀ l ∈ mid, isFence l = false

/-- Invariant carried by the `current_text`/`in_code_block` pair of the
scanning loop. -/
def CurInv : List (List Char) → Bool → Prop
  | cur, true => ∃ f mid, cur = f :: mid ∧ isFence f = true ∧
      ∀ l ∈ mid, isFence l = false
  | cur, false => ∀ l ∈ cur, isFence l = false

theorem getLast?_cons_ne {α : Type} (a : α) {l : List α} (h : l ≠ []) :
    (a :: l).getLast? = l.getLast? := by
  cases l with
  | nil => exact absurd rfl h
  | cons b t => rfl

theorem splitLoopL_nil (cur : List (List Char)) (ic : Bool) :
    splitLoopL [] cur ic = if cur = [] then [] else [(cur, ic)] := rfl

theorem splitLoopL_fence_code {line : List Char} (rest cur : List (List Char))
    (hf : isFence line = true) :
    splitLoopL (line :: rest) cur true =
      (cur ++ [line], true) :: splitLoopL rest [] false := by
  simp [splitLoopL, hf]

theorem splitLoopL_fence_text {line : List Char} (rest cur : List (List Char))
    (hf : isFence line = true) :
    splitLoopL (line :: rest) cur false =
      (if cur = [] then [] else [(cur, false)]) ++ splitLoopL rest [line] true := by
  simp [splitLoopL, hf]

theorem splitLoopL_plain {line : List Char} (rest cur : List (List Char)) (ic : Bool)
    (hf : isFence line = false) :
    splitLoopL (line :: rest) cur ic = splitLoopL rest (cur ++ [line]) ic := by
  simp [splitLoopL, hf]

theorem splitLoopL_flatten :
    ∀ (lines cur : List (List Char)) (ic : Bool),
      ((splitLoopL lines cur ic).map Prod.fst).flatten = cur ++ lines := by
  intro lines
  induction lines with
  | nil =>
    intro cur ic
    by_cases hcur : cur = [] <;> simp [splitLoopL, hcur]
  | cons line rest ih =>
    intro cur ic
    simp only [splitLoopL]
    by_cases hf : isFence line
    · rw [if_pos hf]
      cases ic with
      | true => simp [ih]
      | false =>
        by_cases hcur : cur = [] <;> simp [hcur, ih]
      -- both branches reassociate `cur ++ [line] ++ rest`
    · rw [if_neg hf, ih]
      simp

theorem splitLoopL_shape :
    ∀ (lines cur : List (List Char)) (ic : Bool), CurInv cur ic →
      ∀ p ∈ splitLoopL lines cur ic,
        PartOK p ∧
        (p.2 = true → CodeTerminated p ∨
          (splitLoopL lines cur ic).getLast? = some p) := by
  intro lines
  induction lines with
  | nil =>
    intro cur ic hinv p hp
    by_cases hcur : cur = []
    · simp [splitLoopL, hcur] at hp
    · simp only [splitLoopL, hcur, if_neg, if_false] at hp
      simp only [List.mem_singleton] at hp
      subst hp
      cases ic with
      | true =>
        obtain ⟨f, mid, hcureq, hfen, hmid⟩ := hinv
        exact ⟨⟨f, mid, hcureq, hfen⟩, fun _ => Or.inr (by simp [splitLoopL, hcur])⟩
      | false =>
        exact ⟨⟨hcur, hinv⟩, fun hfalse => by simp at hfalse⟩
  | cons line rest ih =>
    intro cur ic hinv p hp
    by_cases hf : isFence line
    · cases ic with
      | true =>
        rw [splitLoopL_fence_code rest cur hf] at hp ⊢
        obtain ⟨f, mid, hcureq, hfen, hmid⟩ := hinv
        rcases List.mem_cons.mp hp with hp1 | hp1
        · subst hp1
          refine ⟨⟨f, mid ++ [line], by simp [hcureq], hfen⟩, fun _ => Or.inl ?_⟩
          exact ⟨f, mid, line, by simp [hcureq], hfen, hf, hmid⟩
        · have hrec := ih [] false (by intro l hl; simp at hl) p hp1
          refine ⟨hrec.1, fun hc => ?_⟩
          rcases hrec.2 hc with h | h
          · exact Or.inl h
          · refine Or.inr ?_
            rw [getLast?_cons_ne _ (List.ne_nil_of_mem hp1)]
            exact h
      | false =>
        rw [splitLoopL_fence_text rest cur hf] at hp ⊢
        have hrecinv : CurInv [line] true := ⟨line, [], rfl, hf, by simp⟩
        by_cases hcur : cur = []
        · simp only [hcur, if_pos rfl, List.nil_append] at hp ⊢
          have hrec := ih [line] true hrecinv p hp
          exact ⟨hrec.1, hrec.2⟩
        · simp only [hcur, if_neg, if_false, List.singleton_append] at hp ⊢
          rcases List.mem_cons.mp hp with hp1 | hp1
          · subst hp1
            exact ⟨⟨hcur, hinv⟩, fun hfalse => by simp at hfalse⟩
          · have hrec := ih [line] true hrecinv p hp1
            refine ⟨hrec.1, fun hc => ?_⟩
            rcases hrec.2 hc with h | h
            · exact Or.inl h
            · refine Or.inr ?_
              rw [getLast?_cons_ne _ (List.ne_nil_of_mem hp1)]
              exact h
    · rw [Bool.not_eq_true] at hf
      rw [splitLoopL_plain rest cur ic hf] at hp ⊢
      have hinv' : CurInv (cur ++ [line]) ic := by
        cases ic with
        | true =>
          obtain ⟨f, mid, hcureq, hfen, hmid⟩ := hinv
          refine ⟨f, mid ++ [line], by simp [hcureq], hfen, ?_⟩
          intro l hl
          rcases List.mem_append.mp hl with hl | hl
          · exact hmid l hl
          · simp only [List.mem_singleton] at hl
            subst hl
            exact hf
        | false =>
          intro l hl
          rcases List.mem_append.mp hl with hl | hl
          · exact hinv l hl
          · simp only [List.mem_singleton] at hl
            subst hl
            exact hf
      exact ih (cur ++ [line]) ic hinv' p hp

theorem joinNL_cons_ne (x : List Char) {l : List (List Char)} (h : l ≠ []) :
    joinNL (x :: l) = x ++ '\n' :: joinNL l := by
  cases l with
  | nil => exact absurd rfl h
  | cons b t => rfl

theorem joinNL_append {g h : List (List Char)} (hg : g ≠ []) (hh : h ≠ []) :
    joinNL (g ++ h) = joinNL g ++ '\n' :: joinNL h := by
  induction g with
  | nil => exact absurd rfl hg
  | cons x g' ih =>
    cases g' with
    | nil =>
      rw [List.singleton_append, joinNL_cons_ne x hh]
      rfl
    | cons y t =>
      rw [List.cons_append, joinNL_cons_ne x (by simp), joinNL_cons_ne x (by simp),
        ih (by simp)]
      simp

theorem flatten_ne_nil {groups : List (List (List Char))} (hne : groups ≠ [])
    (hall : ∀ g ∈ groups, g ≠ []) : groups.flatten ≠ [] := by
  cases groups with
  | nil => exact absurd rfl hne
  | cons g gs =>
    have : g ≠ [] := hall g (List.mem_cons_self _ _)
    simp only [List.flatten_cons]
    intro hcontra
    exact this (List.append_eq_nil.mp hcontra).1

theorem joinNL_map_flatten :
    ∀ (groups : List (List (List Char))), (∀ g ∈ groups, g ≠ []) →
      joinNL (groups.map joinNL) = joinNL groups.flatten := by
  intro groups
  induction groups with
  | nil => intro _; rfl
  | cons g gs ih =>
    intro hall
    have hg : g ≠ [] := hall g (List.mem_cons_self _ _)
    have hgs : ∀ x ∈ gs, x ≠ [] := fun x hx => hall x (List.mem_cons_of_mem _ hx)
    cases gs with
    | nil => simp [joinNL]
    | cons g2 t =>
      have hne : (g2 :: t).flatten ≠ [] := flatten_ne_nil (by simp) hgs
      rw [List.map_cons, joinNL_cons_ne _ (by simp), ih hgs,
        show (g :: g2 :: t).flatten = g ++ (g2 :: t).flatten from rfl,
        joinNL_append hg hne]

/-- The caller-facing way C10 phrases reconstruction: join the part texts
with a single newline between consecutive parts. -/
def joinedWithNewlines (ps : List String) : String :=
  String.mk (joinNL (ps.map String.data))

theorem splitLoopL_parts_ne_nil (lines cur : List (List Char)) (ic : Bool)
    (hinv : CurInv cur ic) : ∀ p ∈ splitLoopL lines cur ic, p.1 ≠ [] := by
  intro p hp
  have := (splitLoopL_shape lines cur ic hinv p hp).1
  match p with
  | (ls, true) =>
    obtain ⟨f, mid, hls, _⟩ := this
    simp [hls]
  | (ls, false) => exact this.1

/-- Claim C10: `_split_preserving_code_blocks` partitions the input lines
in order — joining the part texts with a single newline between
consecutive parts reconstructs the input exactly — every part flagged as
code begins with a fence line, text parts contain no fence line, and a
code part that is not the trailing (unterminated) part carries both
delimiter lines with a fence-free interior. -/
theorem claim_C10 (markdown : String) :
    joinedWithNewlines ((split_preserving_code_blocks markdown).map Prod.fst) = markdown ∧
    ((splitLoopL (splitNL markdown.data) [] false).map Prod.fst).flatten =
      splitNL markdown.data ∧
    (∀ p ∈ splitLoopL (splitNL markdown.data) [] false,
      p.1 ≠ [] ∧
      (p.2 = true → ∃ f mid, p.1 = f :: mid ∧ isFence f = true) ∧
      (p.2 = false → ∀ l ∈ p.1, isFence l = false) ∧
      (p.2 = true → CodeTerminated p ∨
        (splitLoopL (splitNL markdown.data) [] false).getLast? = some p)) ∧
    (∀ q ∈ split_preserving_code_blocks markdown, q.2 = true →
      strStartsWith q.1 "```" = true) := by
  have hinv0 : CurInv ([] : List (List Char)) false := by
    intro l hl; simp at hl
  have hflat := splitLoopL_flatten (splitNL markdown.data) [] false
  simp only [List.nil_append] at hflat
  have hne := splitLoopL_parts_ne_nil (splitNL markdown.data) [] false hinv0
  refine ⟨?_, hflat, ?_, ?_⟩
  · unfold joinedWithNewlines
    have key : ((split_preserving_code_blocks markdown).map Prod.fst).map String.data =
        ((splitLoopL (splitNL markdown.data) [] false).map Prod.fst).map joinNL := by
      unfold split_preserving_code_blocks
      simp only [List.map_map]
      rfl
    rw [key, joinNL_map_flatten _ (by
      intro g hg
      obtain ⟨p, hp, hpeq⟩ := List.mem_map.mp hg
      exact hpeq ▸ hne p hp)]
    rw [hflat, join_splitNL]
  · intro p hp
    obtain ⟨ls, b⟩ := p
    have hshape := splitLoopL_shape (splitNL markdown.data) [] false hinv0 (ls, b) hp
    refine ⟨hne _ hp, ?_, ?_, hshape.2⟩
    · intro hcode
      cases hcode
      obtain ⟨f, mid, hls, hfen⟩ := hshape.1
      exact ⟨f, mid, hls, hfen⟩
    · intro htext
      cases htext
      exact hshape.1.2
  · intro q hq hcode
    unfold split_preserving_code_blocks at hq
    obtain ⟨p, hp, hpeq⟩ := List.mem_map.mp hq
    obtain ⟨ls, b⟩ := p
    have hshape := splitLoopL_shape (splitNL markdown.data) [] false hinv0 (ls, b) hp
    have hc2 : b = true := by
      have := congrArg Prod.snd hpeq
      simpa [hcode] using this
    cases hc2
    obtain ⟨f, mid, hls, hfen⟩ := hshape.1
    have hq1 : q.1 = String.mk (joinNL ls) := by
      have := congrArg Prod.fst hpeq
      simpa using this.symm
    rw [hq1]
    show List.isPrefixOf _ _ = true
    rw [List.isPrefixOf_iff_prefix]
    have hpref : "```".data <+: f := List.isPrefixOf_iff_prefix.mp hfen
    refine hpref.trans ?_
    cases mid with
    | nil => simp [hls, joinNL]
    | cons m t =>
      rw [hls, joinNL_cons_ne _ (by simp)]
      exact List.prefix_append _ _

/-- Claim C9: for every input that is empty or consists only of
whitespace, `chunk_text` — and `chunk_markdown` on such input, with either
value of `preserve_code_blocks` — returns the empty list of segments, not
a single empty segment. -/
theorem claim_C9 (c : SmartChunker) (meta : MDict) (text : String)
    (h : text.data.all pyIsSpace = true) :
    chunk_text c text meta = [] ∧
    chunk_markdown c text meta true = [] ∧
    chunk_markdown c text meta false = [] := by
  have hstrip : pyStrip text = "" := pyStrip_eq_empty h
  have hct : chunk_text c text meta = [] := by
    unfold chunk_text
    rw [if_pos hstrip]
  refine ⟨hct, ?_, ?_⟩
  · unfold chunk_markdown
    rw [if_pos rfl]
    rw [split_no_fence (fun l hl => isFence_of_all_space (splitNL_all h l hl))]
    simpa using hct
  · simpa [chunk_markdown] using hct

/-- Witness for C9 at the concrete inputs `""` and `" \n\t "`:
`chunk_text("")` is `[]`, and so are the markdown variants on whitespace. -/
theorem claim_C9_witness :
    chunk_text ⟨1000, 200, String.length, fun t => [t]⟩ "" mdEmpty = [] ∧
    chunk_markdown ⟨1000, 200, String.length, fun t => [t]⟩ " \n\t " mdEmpty true = [] := by
  constructor
  · exact (claim_C9 ⟨1000, 200, String.length, fun t => [t]⟩ mdEmpty "" (by decide)).1
  · exact (claim_C9 ⟨1000, 200, String.length, fun t => [t]⟩ mdEmpty " \n\t " (by decide)).2.1

/-! ## URL filter: claim C4 -/

theorem strContains_iff {haystack needle : String} :
    strContains haystack needle = true ↔ needle.data <:+: haystack.data := by
  unfold strContains
  rw [List.any_eq_true]
  constructor
  · rintro ⟨t, ht, hpre⟩
    exact List.infix_iff_prefix_suffix.mpr
      ⟨t, List.isPrefixOf_iff_prefix.mp hpre, (List.mem_tails _ _).mp ht⟩
  · intro hinf
    obtain ⟨t, hpre, hsuf⟩ := List.infix_iff_prefix_suffix.mp hinf
    exact ⟨t, (List.mem_tails _ _).mpr hsuf, List.isPrefixOf_iff_prefix.mpr hpre⟩

theorem strStartsWith_iff {s p : String} :
    strStartsWith s p = true ↔ p.data <+: s.data :=
  List.isPrefixOf_iff_prefix

/-- The skip predicate exactly as claim C4 words it: the URL was already
visited, or it does not start with the configured base-domain string, or
it contains a configured skip-pattern as a substring, or it contains one
of the common non-document markers (anchor `#`, `javascript:`, `mailto:`,
binary/image/archive extensions) compared case-insensitively. -/
def SkipSpec (visited : List String) (base_url : String)
    (skip_patterns : List String) (url : String) : Prop :=
  url ∈ visited ∨
  ¬ base_url.data <+: url.data ∨
  (∃ pattern ∈ skip_patterns, pattern.data <:+: url.data) ∨
  (∃ skip ∈ common_skips, (pyLower skip).data <:+: (pyLower url).data)

theorem common_skips_lower : ∀ s ∈ common_skips, pyLower s = s := by decide

/-- Claim C4: `should_skip` returns true exactly when one of the four
documented conditions holds. -/
theorem claim_C4 (visited : List String) (base_url : String)
    (skip_patterns : List String) (url : String) :
    should_skip visited base_url skip_patterns url = true ↔
      SkipSpec visited base_url skip_patterns url := by
  have hpat : skip_patterns.any (fun pattern => strContains url pattern) = true ↔
      ∃ pattern ∈ skip_patterns, pattern.data <:+: url.data := by
    rw [List.any_eq_true]
    exact ⟨fun ⟨p, hp, hc⟩ => ⟨p, hp, strContains_iff.mp hc⟩,
      fun ⟨p, hp, hc⟩ => ⟨p, hp, strContains_iff.mpr hc⟩⟩
  have hcs : common_skips.any (fun skip => strContains (pyLower url) skip) = true ↔
      ∃ skip ∈ common_skips, (pyLower skip).data <:+: (pyLower url).data := by
    rw [List.any_eq_true]
    constructor
    · rintro ⟨s, hs, hc⟩
      refine ⟨s, hs, ?_⟩
      rw [common_skips_lower s hs]
      exact strContains_iff.mp hc
    · rintro ⟨s, hs, hc⟩
      refine ⟨s, hs, strContains_iff.mpr ?_⟩
      rw [← common_skips_lower s hs]
      exact hc
  unfold should_skip SkipSpec
  split_ifs with h1 h2 h3
  · simp only [true_iff]
    exact Or.inl h1
  · simp only [true_iff]
    rw [Bool.not_eq_true'] at h2
    exact Or.inr (Or.inl (fun hc => by
      rw [strStartsWith_iff.mpr hc] at h2
      exact Bool.true_eq_false.mp h2))
  · simp only [true_iff]
    exact Or.inr (Or.inr (Or.inl (hpat.mp h3)))
  · constructor
    · intro hc
      exact Or.inr (Or.inr (Or.inr (hcs.mp hc)))
    · rintro (hc | hc | hc | hc)
      · exact absurd hc h1
      · have hst : strStartsWith url base_url = true := by
          cases hb : strStartsWith url base_url
          · exact absurd (by rw [hb]; rfl) h2
          · rfl
        exact absurd (strStartsWith_iff.mp hst) hc
      · exact absurd (hpat.mpr hc) h3
      · exact hcs.mpr hc

/-! ## URL normalization: claims C3 and C8 -/

theorem http_shape {u : String} (h : strStartsWith u "http" = true) :
    ∃ rest, u.data = 'h' :: 't' :: 't' :: 'p' :: rest := by
  obtain ⟨t, ht⟩ := List.isPrefixOf_iff_prefix.mp h
  exact ⟨t, ht.symm⟩

theorem not_startsWith_slash {u : String} (h : strStartsWith u "http" = true) :
    strStartsWith u "/" = false := by
  obtain ⟨rest, hu⟩ := http_shape h
  unfold strStartsWith
  rw [hu]
  rfl

theorem normalize_url_http {u : String} (h : strStartsWith u "http" = true)
    (lib : UrlLib) (b : String) :
    normalize_url lib u b = rstripSlashes (takeBeforeHash u) := by
  unfold normalize_url
  rw [not_startsWith_slash h, h]
  simp

theorem takeBeforeHash_no_hash (s : String) :
    ∀ c ∈ (takeBeforeHash s).data, c ≠ '#' := by
  intro c hc
  have := List.mem_takeWhile_imp hc
  simpa using this

theorem rstrip_subset (s : String) :
    ∀ c ∈ (rstripSlashes s).data, c ∈ s.data := by
  intro c hc
  unfold rstripSlashes at hc
  rw [show (String.mk ((s.data.reverse.dropWhile (fun c => c = '/')).reverse)).data =
    (s.data.reverse.dropWhile (fun c => c = '/')).reverse from rfl] at hc
  rw [List.mem_reverse] at hc
  have hsub : List.Sublist (s.data.reverse.dropWhile (fun c => decide (c = '/')))
      s.data.reverse := List.dropWhile_sublist _
  have := hsub.subset hc
  rwa [List.mem_reverse] at this

theorem rstrip_no_trailing (s : String) :
    (rstripSlashes s).data.getLast? = some '/' → False := by
  intro hlast
  unfold rstripSlashes at hlast
  rw [show (String.mk ((s.data.reverse.dropWhile (fun c => c = '/')).reverse)).data =
    (s.data.reverse.dropWhile (fun c => c = '/')).reverse from rfl] at hlast
  rw [List.getLast?_reverse] at hlast
  rcases hdw : s.data.reverse.dropWhile (fun c => decide (c = '/')) with _ | ⟨x, xs⟩
  · rw [hdw] at hlast
    simp at hlast
  · rw [hdw] at hlast
    simp only [List.head?_cons, Option.some.injEq] at hlast
    have h0 : 0 < (s.data.reverse.dropWhile (fun c => decide (c = '/'))).length := by
      simp [hdw]
    have hnp := List.dropWhile_get_zero_not (p := fun c => decide (c = '/'))
      s.data.reverse h0
    rw [List.get_of_eq hdw] at hnp
    simp [hlast] at hnp

theorem rstrip_idem (s : String) : rstripSlashes (rstripSlashes s) = rstripSlashes s := by
  unfold rstripSlashes
  apply congrArg
  apply congrArg
  rw [show (String.mk ((s.data.reverse.dropWhile (fun c => c = '/')).reverse)).data =
    (s.data.reverse.dropWhile (fun c => c = '/')).reverse from rfl]
  rw [List.reverse_reverse, List.dropWhile_idempotent]

theorem takeBeforeHash_of_no_hash {s : String} (h : ∀ c ∈ s.data, c ≠ '#') :
    takeBeforeHash s = s := by
  unfold takeBeforeHash
  rw [List.takeWhile_eq_self_iff.mpr (fun c hc => by simpa using h c hc)]

theorem normalize_http_preserves_http {u : String}
    (h : strStartsWith u "http" = true) :
    strStartsWith (rstripSlashes (takeBeforeHash u)) "http" = true := by
  obtain ⟨rest, hu⟩ := http_shape h
  have htb : (takeBeforeHash u).data =
      'h' :: 't' :: 't' :: 'p' :: rest.takeWhile (fun c => decide (c ≠ '#')) := by
    show u.data.takeWhile _ = _
    rw [hu]
    simp [List.takeWhile_cons]
  unfold strStartsWith rstripSlashes
  rw [htb]
  set w := rest.takeWhile (fun c => decide (c ≠ '#')) with hw
  rw [show ('h' :: 't' :: 't' :: 'p' :: w).reverse = w.reverse ++ ['p', 't', 't', 'h'] by
    simp]
  rw [List.dropWhile_append]
  by_cases hcase : (w.reverse.dropWhile (fun c => decide (c = '/'))).isEmpty
  · rw [if_pos hcase]
    rfl
  · rw [if_neg hcase, List.reverse_append]
    rw [show (['p', 't', 't', 'h'] : List Char).reverse = ['h', 't', 't', 'p'] from rfl]
    exact List.isPrefixOf_iff_prefix.mpr (List.prefix_append _ _)

/-- Scan for the first `"://"` separator, returning the text before it and
the text after it. -/
def findSchemeSep : List Char → Option (List Char × List Char)
  | [] => none
  | ':' :: '/' :: '/' :: rest => some ([], rest)
  | c :: cs => (findSchemeSep cs).map (fun p => (c :: p.1, p.2))

/-- Model of `urllib.parse.urlparse(base).scheme` on well-formed http(s)
URLs (text before the first `"://"`). -/
def pyUrlScheme (s : String) : String :=
  match findSchemeSep s.data with
  | none => ""
  | some p => String.mk p.1

/-- Model of `urllib.parse.urlparse(base).netloc` on well-formed http(s)
URLs (text between `"://"` and the next `/`, `?` or `#`). -/
def pyUrlNetloc (s : String) : String :=
  match findSchemeSep s.data with
  | none => ""
  | some p => String.mk (p.2.takeWhile (fun c => ¬(c = '/' ∨ c = '?' ∨ c = '#')))

/-- Concrete instance of the `urllib.parse` collaborators, used to
evaluate `normalize_url` on the inputs appearing in the closed theorems
below.  `urljoin` is modelled only on absolute references (where Python's
`urljoin(base, ref)` returns `ref` unchanged); `normalize_url` reaches
`urljoin` exactly on relative references, and no theorem in this file
evaluates that branch. -/
def pyUrlLib : UrlLib where
  scheme := pyUrlScheme
  netloc := pyUrlNetloc
  urljoin := fun _base ref => ref

/-- Claim C3 as stated is false: normalization is not idempotent over all
three branches.  The root-relative branch returns
`scheme://netloc/path` without stripping the trailing slash, so a second
application (which takes the absolute branch) changes the result. -/
theorem claim_C3_counterexample :
    normalize_url pyUrlLib "/docs/" "https://x.dev" = "https://x.dev/docs/" ∧
    normalize_url pyUrlLib (normalize_url pyUrlLib "/docs/" "https://x.dev")
        "https://x.dev" = "https://x.dev/docs" ∧
    normalize_url pyUrlLib (normalize_url pyUrlLib "/docs/" "https://x.dev")
        "https://x.dev" ≠ normalize_url pyUrlLib "/docs/" "https://x.dev" := by
  refine ⟨by decide, by decide, by decide⟩

/-- Claim C3, amended: idempotence holds on the absolute branch — for
every URL starting with `"http"`, a second normalization (against any
bases, for every choice of the urllib collaborators) leaves the result
unchanged; the root-relative and relative branches do not strip fragments
or trailing slashes, so idempotence fails there. -/
theorem claim_C3 (lib : UrlLib) (u b b2 : String)
    (h : strStartsWith u "http" = true) :
    normalize_url lib (normalize_url lib u b) b2 = normalize_url lib u b := by
  rw [normalize_url_http h lib b]
  rw [normalize_url_http (normalize_http_preserves_http h) lib b2]
  have hnohash : ∀ c ∈ (rstripSlashes (takeBeforeHash u)).data, c ≠ '#' :=
    fun c hc => takeBeforeHash_no_hash u c (rstrip_subset _ c hc)
  rw [takeBeforeHash_of_no_hash hnohash, rstrip_idem]

/-- Witness for C3 (amended) at a concrete absolute URL with both a
fragment and a trailing slash. -/
theorem claim_C3_witness :
    strStartsWith "https://x.dev/docs/#top" "http" = true ∧
    normalize_url pyUrlLib
        (normalize_url pyUrlLib "https://x.dev/docs/#top" "https://x.dev")
        "https://x.dev" =
      normalize_url pyUrlLib "https://x.dev/docs/#top" "https://x.dev" :=
  ⟨by decide, claim_C3 pyUrlLib "https://x.dev/docs/#top" "https://x.dev" "https://x.dev"
    (by decide)⟩

/-- The absolute-URL normalization exactly as claim C8 words it: the
fragment (everything from `'#'` onward) is stripped, then any single
trailing slash is removed. -/
def normalizeC8Spec (u : String) : String :=
  let nofrag := takeBeforeHash u
  if nofrag.data.getLast? = some '/' then String.mk nofrag.data.dropLast else nofrag

/-- Claim C8 as stated is false: the code removes all trailing slashes
(`rstrip("/")`), not a single one.  On `"https://x.dev/docs//"` the code
yields `"https://x.dev/docs"` while stripping a single trailing slash
would yield `"https://x.dev/docs/"`. -/
theorem claim_C8_counterexample :
    normalize_url pyUrlLib "https://x.dev/docs//" "https://x.dev" =
      "https://x.dev/docs" ∧
    normalizeC8Spec "https://x.dev/docs//" = "https://x.dev/docs/" ∧
    normalize_url pyUrlLib "https://x.dev/docs//" "https://x.dev" ≠
      normalizeC8Spec "https://x.dev/docs//" := by
  refine ⟨by decide, by decide, by decide⟩

/-- Claim C8, amended: for every URL starting with `"http"` (and any
bases and urllib collaborators), normalization strips the fragment and
removes all trailing slashes: the result equals the code's
`rstrip`-composition, contains no `'#'`, does not end in `'/'`, and is a
prefix of the original URL. -/
theorem claim_C8 (lib : UrlLib) (b u : String)
    (h : strStartsWith u "http" = true) :
    normalize_url lib u b = rstripSlashes (takeBeforeHash u) ∧
    (∀ c ∈ (normalize_url lib u b).data, c ≠ '#') ∧
    ((normalize_url lib u b).data.getLast? = some '/' → False) ∧
    (normalize_url lib u b).data <+: u.data := by
  have heq := normalize_url_http h lib b
  refine ⟨heq, ?_, ?_, ?_⟩
  · rw [heq]
    exact fun c hc => takeBeforeHash_no_hash u c (rstrip_subset _ c hc)
  · rw [heq]
    exact rstrip_no_trailing _
  · rw [heq]
    have h1 : (rstripSlashes (takeBeforeHash u)).data <+: (takeBeforeHash u).data := by
      have hsuf : List.IsSuffix ((takeBeforeHash u).data.reverse.dropWhile
          (fun c => decide (c = '/'))) (takeBeforeHash u).data.reverse :=
        List.dropWhile_suffix _
      have hpre := hsuf.reverse
      rwa [List.reverse_reverse] at hpre
    have h2 : (takeBeforeHash u).data <+: u.data := List.takeWhile_prefix _
    exact h1.trans h2

/-- Witness for C8 (amended): `"https://x.dev/docs/"` and
`"https://x.dev/docs"` normalize to the same canonical URL. -/
theorem claim_C8_witness :
    strStartsWith "https://x.dev/docs/" "http" = true ∧
    normalize_url pyUrlLib "https://x.dev/docs/" "https://x.dev" =
      rstripSlashes (takeBeforeHash "https://x.dev/docs/") ∧
    normalize_url pyUrlLib "https://x.dev/docs/" "https://x.dev" =
      normalize_url pyUrlLib "https://x.dev/docs" "https://x.dev" :=
  ⟨by decide,
    (claim_C8 pyUrlLib "https://x.dev" "https://x.dev/docs/" (by decide)).1,
    by decide⟩

/-- Witness for C10 at a concrete document containing a fenced block. -/
theorem claim_C10_witness :
    joinedWithNewlines
      ((split_preserving_code_blocks "a\n```js\nx\n```\nb").map Prod.fst) =
      "a\n```js\nx\n```\nb" :=
  (claim_C10 "a\n```js\nx\n```\nb").1

/-! ## Chunk metadata: claims C1 and C2 -/

theorem chunk_text_length (c : SmartChunker) (text : String) (meta : MDict)
    (h : ¬ pyStrip text = "") :
    (chunk_text c text meta).length = (c.splitNodes text).length := by
  unfold chunk_text
  rw [if_neg h]
  simp

theorem chunk_text_get (c : SmartChunker) (text : String) (meta : MDict)
    (i : Nat) (h : i < (chunk_text c text meta).length) :
    (chunk_text c text meta).get ⟨i, h⟩ =
      { content := (c.splitNodes text).get ⟨i, by
          rw [← chunk_text_length c text meta (by
            intro hc
            rw [show chunk_text c text meta = [] from by unfold chunk_text; rw [if_pos hc]]
              at h
            simp at h)]
          exact h⟩
        metadata := mdSet (mdSet meta "chunk_index" (.n i)) "chunk_count"
          (.n (c.splitNodes text).length)
        tokens := c.countTokens ((c.splitNodes text).get ⟨i, by
          rw [← chunk_text_length c text meta (by
            intro hc
            rw [show chunk_text c text meta = [] from by unfold chunk_text; rw [if_pos hc]]
              at h
            simp at h)]
          exact h⟩) } := by
  have hstrip : ¬ pyStrip text = "" := by
    intro hc
    rw [show chunk_text c text meta = [] from by unfold chunk_text; rw [if_pos hc]] at h
    simp at h
  conv_lhs => unfold chunk_text
  rw [List.get_eq_getElem]
  simp only [if_neg hstrip]
  rw [List.getElem_map, List.getElem_enum]
  rfl

theorem mdSet_same (d : MDict) (k : String) (v : MVal) : mdSet d k v k = some v := by
  simp [mdSet]

theorem mdSet_other (d : MDict) (k k' : String) (v : MVal) (h : k' ≠ k) :
    mdSet d k v k' = d k' := by
  simp [mdSet, h]

/-- Every chunk produced by `chunk_text` carries the caller metadata at
all keys other than the two sequence fields. -/
theorem chunk_text_metadata_carry {c : SmartChunker} {text : String} {meta : MDict}
    {ch : Chunk} (hch : ch ∈ chunk_text c text meta) :
    ∀ k, k ≠ "chunk_index" → k ≠ "chunk_count" → ch.metadata k = meta k := by
  intro k h1 h2
  unfold chunk_text at hch
  by_cases hstrip : pyStrip text = ""
  · rw [if_pos hstrip] at hch
    simp at hch
  · rw [if_neg hstrip] at hch
    simp only [List.mem_map] at hch
    obtain ⟨pr, _, hpr⟩ := hch
    rw [← hpr]
    simp only
    rw [mdSet_other _ _ _ _ h2, mdSet_other _ _ _ _ h1]

/-- Claim C1 as stated is false.  On the single-code-block document
"```\nx\n```" (which fits `max_tokens`), `chunk_markdown` with
`preserve_code_blocks=true` returns exactly one segment, and that
segment's metadata has no `chunk_index` key at all (lookup yields `none`
rather than the claimed position 0). -/
theorem claim_C1_counterexample :
    (chunk_markdown ⟨1000, 200, String.length, fun t => [t]⟩
        "```\nx\n```" mdEmpty true).map
      (fun ch => ch.metadata "chunk_index") = [none] := by
  decide

/-- Claim C1, amended: `chunk_text` segments carry the caller metadata
verbatim plus `chunk_index` (0-based position within that `chunk_text`
call) and `chunk_count` (that call's total); under
`preserve_code_blocks=true`, a segment of `chunk_markdown` either is an
atomic code segment — carrying only the caller metadata plus
`is_code_block = true`, with no `chunk_index`/`chunk_count` — or comes
from a per-part `chunk_text` call, so its indices restart at 0 on every
part rather than spanning the whole document. -/
theorem claim_C1 :
    (∀ (c : SmartChunker) (text : String) (meta : MDict) (i : Nat)
      (h : i < (chunk_text c text meta).length),
      ((chunk_text c text meta).get ⟨i, h⟩).metadata "chunk_index" = some (.n i) ∧
      ((chunk_text c text meta).get ⟨i, h⟩).metadata "chunk_count" =
        some (.n (chunk_text c text meta).length) ∧
      ∀ k, k ≠ "chunk_index" → k ≠ "chunk_count" →
        ((chunk_text c text meta).get ⟨i, h⟩).metadata k = meta k) ∧
    (∀ (c : SmartChunker) (md : String) (meta : MDict) (ch : Chunk),
      ch ∈ chunk_markdown c md meta true →
      (ch.metadata "is_code_block" = some (.b true) ∧
        ∀ k, k ≠ "is_code_block" → ch.metadata k = meta k) ∨
      ∃ p ∈ split_preserving_code_blocks md, ch ∈ chunk_text c p.1 meta) := by
  constructor
  · intro c text meta i h
    have hstrip : ¬ pyStrip text = "" := by
      intro hc
      rw [show chunk_text c text meta = [] from by
        unfold chunk_text; rw [if_pos hc]] at h
      simp at h
    rw [chunk_text_get]
    refine ⟨?_, ?_, ?_⟩
    · simp only
      rw [mdSet_other _ _ _ _ (by decide), mdSet_same]
    · simp only
      rw [mdSet_same, chunk_text_length c text meta hstrip]
    · intro k h1 h2
      simp only
      rw [mdSet_other _ _ _ _ h2, mdSet_other _ _ _ _ h1]
  · intro c md meta ch hch
    replace hch : ch ∈ (split_preserving_code_blocks md).flatMap (fun part =>
      if part.2 then
        if c.countTokens part.1 ≤ c.chunk_size then
          [{ content := part.1
             metadata := mdSet meta "is_code_block" (.b true)
             tokens := c.countTokens part.1 }]
        else chunk_text c part.1 meta
      else chunk_text c part.1 meta) := hch
    rw [List.mem_flatMap] at hch
    obtain ⟨part, hpmem, hchpart⟩ := hch
    obtain ⟨t, b⟩ := part
    cases b with
    | false =>
      exact Or.inr ⟨(t, false), hpmem, hchpart⟩
    | true =>
      have hchpart' : ch ∈ (if c.countTokens t ≤ c.chunk_size then
          [{ content := t
             metadata := mdSet meta "is_code_block" (.b true)
             tokens := c.countTokens t }]
        else chunk_text c t meta) := hchpart
      by_cases htok : c.countTokens t ≤ c.chunk_size
      · rw [if_pos htok] at hchpart'
        simp only [List.mem_singleton] at hchpart'
        subst hchpart'
        refine Or.inl ⟨?_, ?_⟩
        · show mdSet meta "is_code_block" (.b true) "is_code_block" = some (.b true)
          exact mdSet_same _ _ _
        · intro k hk
          show mdSet meta "is_code_block" (.b true) k = meta k
          exact mdSet_other _ _ _ _ hk
      · rw [if_neg htok] at hchpart'
        exact Or.inr ⟨(t, true), hpmem, hchpart'⟩

/-- Witness for the `chunk_text` half of C1 (amended) at a concrete
input. -/
theorem claim_C1_witness :
    ((chunk_text ⟨1000, 200, String.length, fun t => [t]⟩ "hello" mdEmpty).get
      ⟨0, by decide⟩).metadata "chunk_index" = some (.n 0) :=
  (claim_C1.1 ⟨1000, 200, String.length, fun t => [t]⟩ "hello" mdEmpty 0 (by decide)).1

/-- Per-part segment production exactly as the spec's code-block-aware
path words it: a code span whose token count fits within `max_tokens` is
emitted as a single atomic tagged segment; a code span exceeding
`max_tokens` falls back to the core splitting algorithm on its raw text;
a prose span is chunked by the core algorithm. -/
def specPartSegments (c : SmartChunker) (meta : MDict) : String × Bool → List Chunk
  | (t, true) =>
    if c.countTokens t ≤ c.chunk_size then
      [{ content := t
         metadata := mdSet meta "is_code_block" (.b true)
         tokens := c.countTokens t }]
    else chunk_text c t meta
  | (t, false) => chunk_text c t meta

theorem chunk_markdown_flatMap (c : SmartChunker) (md : String) (meta : MDict) :
    chunk_markdown c md meta true =
      (split_preserving_code_blocks md).flatMap (specPartSegments c meta) := by
  have hfun : (fun part : String × Bool =>
      if part.2 then
        if c.countTokens part.1 ≤ c.chunk_size then
          [{ content := part.1
             metadata := mdSet meta "is_code_block" (.b true)
             tokens := c.countTokens part.1 }]
        else chunk_text c part.1 meta
      else chunk_text c part.1 meta) = specPartSegments c meta := by
    funext part
    obtain ⟨t, b⟩ := part
    cases b <;> rfl
  show (split_preserving_code_blocks md).flatMap _ =
    (split_preserving_code_blocks md).flatMap (specPartSegments c meta)
  rw [hfun]

theorem countP_flatMap {α β : Type} (f : α → List β) (pr : β → Bool) :
    ∀ l : List α, (l.flatMap f).countP pr = (l.map (fun a => (f a).countP pr)).sum := by
  intro l
  induction l with
  | nil => rfl
  | cons a t ih => simp [List.flatMap_cons, List.countP_append, ih]

theorem sum_map_ite_count {α : Type} [DecidableEq α] (p : α) :
    ∀ l : List α, (l.map (fun q => if q = p then 1 else 0)).sum =
      l.countP (fun q => decide (q = p)) := by
  intro l
  induction l with
  | nil => rfl
  | cons a t ih =>
    rw [List.map_cons, List.sum_cons, ih, List.countP_cons]
    by_cases hap : a = p
    · simp [hap, Nat.add_comm]
    · simp [hap]

theorem specPart_countP (c : SmartChunker) (meta : MDict) (t0 : String)
    (htok : c.countTokens t0 ≤ c.chunk_size)
    (hmeta : meta "is_code_block" ≠ some (.b true)) :
    ∀ q : String × Bool,
      (specPartSegments c meta q).countP
        (fun ch => decide (ch.content = t0) &&
          decide (ch.metadata "is_code_block" = some (.b true))) =
      if q = (t0, true) then 1 else 0 := by
  intro q
  obtain ⟨t, b⟩ := q
  have hct : ∀ (s : String), (chunk_text c s meta).countP
      (fun ch => decide (ch.content = t0) &&
        decide (ch.metadata "is_code_block" = some (.b true))) = 0 := by
    intro s
    rw [List.countP_eq_zero]
    intro ch hch
    have hcarry := chunk_text_metadata_carry hch "is_code_block" (by decide) (by decide)
    simp only [Bool.and_eq_true, decide_eq_true_eq, not_and]
    intro _
    rw [hcarry]
    exact hmeta
  cases b with
  | false =>
    rw [show specPartSegments c meta (t, false) = chunk_text c t meta from rfl, hct]
    rw [if_neg (by simp)]
  | true =>
    by_cases h : c.countTokens t ≤ c.chunk_size
    · rw [show specPartSegments c meta (t, true) =
        (if c.countTokens t ≤ c.chunk_size then
          [{ content := t
             metadata := mdSet meta "is_code_block" (.b true)
             tokens := c.countTokens t }]
        else chunk_text c t meta) from rfl]
      rw [if_pos h]
      by_cases hts : t = t0
      · subst hts
        rw [if_pos rfl]
        rw [List.countP_cons]
        simp [mdSet_same]
      · rw [if_neg (by simp [hts])]
        rw [List.countP_cons]
        simp [hts]
    · rw [show specPartSegments c meta (t, true) =
        (if c.countTokens t ≤ c.chunk_size then
          [{ content := t
             metadata := mdSet meta "is_code_block" (.b true)
             tokens := c.countTokens t }]
        else chunk_text c t meta) from rfl]
      rw [if_neg h, hct]
      rw [if_neg (by
        intro hc
        have : t = t0 := by
          have := congrArg Prod.fst hc
          simpa using this
        subst this
        exact h htok)]

/-- Claim C2: under `preserve_code_blocks=true` the output is the
per-part concatenation described by the spec; a code span whose token
count (under the chunker's tokenizer) is at most `max_tokens` yields
exactly one verbatim segment tagged as an atomic code block — exactly one
segment of the whole output when the span occurs once and the caller
metadata does not itself fake the tag — and a code span exceeding
`max_tokens` is split by the core algorithm (`chunk_text`). -/
theorem claim_C2 (c : SmartChunker) (md : String) (meta : MDict) :
    chunk_markdown c md meta true =
      (split_preserving_code_blocks md).flatMap (specPartSegments c meta) ∧
    (∀ p ∈ split_preserving_code_blocks md, p.2 = true →
      (c.countTokens p.1 ≤ c.chunk_size →
        specPartSegments c meta p =
          [{ content := p.1
             metadata := mdSet meta "is_code_block" (.b true)
             tokens := c.countTokens p.1 }]) ∧
      (c.chunk_size < c.countTokens p.1 →
        specPartSegments c meta p = chunk_text c p.1 meta)) ∧
    (∀ p ∈ split_preserving_code_blocks md, p.2 = true →
      c.countTokens p.1 ≤ c.chunk_size →
      meta "is_code_block" ≠ some (.b true) →
      (split_preserving_code_blocks md).countP (fun q => decide (q = p)) = 1 →
      (chunk_markdown c md meta true).countP
        (fun ch => decide (ch.content = p.1) &&
          decide (ch.metadata "is_code_block" = some (.b true))) = 1) := by
  refine ⟨chunk_markdown_flatMap c md meta, ?_, ?_⟩
  · intro p _ hp2
    obtain ⟨t, b⟩ := p
    cases hp2
    constructor
    · intro htok
      show (if c.countTokens t ≤ c.chunk_size then _ else _) = _
      rw [if_pos htok]
    · intro hlt
      show (if c.countTokens t ≤ c.chunk_size then _ else _) = _
      rw [if_neg (Nat.not_le_of_lt hlt)]
  · intro p hp hp2 htok hmeta hcount
    obtain ⟨t, b⟩ := p
    cases hp2
    rw [chunk_markdown_flatMap, countP_flatMap]
    rw [show ((split_preserving_code_blocks md).map
        (fun q => (specPartSegments c meta q).countP
          (fun ch => decide (ch.content = (t, true).1) &&
            decide (ch.metadata "is_code_block" = some (.b true))))) =
      ((split_preserving_code_blocks md).map
        (fun q => if q = (t, true) then 1 else 0)) from
      congrArg (fun f => (split_preserving_code_blocks md).map f)
        (funext (specPart_countP c meta t htok hmeta))]
    rw [sum_map_ite_count]
    exact hcount

/-- Witness for C2 at a concrete markdown document with one small fenced
block. -/
theorem claim_C2_witness :
    ("```\nx\n```", true) ∈ split_preserving_code_blocks "a\n```\nx\n```" ∧
    (chunk_markdown ⟨1000, 200, String.length, fun t => [t]⟩
        "a\n```\nx\n```" mdEmpty true).countP
      (fun ch => decide (ch.content = "```\nx\n```") &&
        decide (ch.metadata "is_code_block" = some (.b true))) = 1 :=
  ⟨by decide,
    (claim_C2 ⟨1000, 200, String.length, fun t => [t]⟩ "a\n```\nx\n```" mdEmpty).2.2
      ("```\nx\n```", true) (by decide) rfl (by decide) (by decide) (by decide)⟩

/-! ## Frontier traversal: claim C5

The loop state sequence `crawlSeq` is analysed through: discovered-set
monotonicity, the FIFO positional lemma (the entry at index `p` of the
queue is dequeued `p` steps later), the two-level depth invariant of a
breadth-first queue, and the soundness/completeness of discovery with
respect to `ReachWithin`. -/

theorem crawlSeq_succ (links : String → List String) (max_depth : Nat)
    (start_url : String) (n : Nat) :
    crawlSeq links max_depth start_url (n + 1) =
      crawlStep links max_depth (crawlSeq links max_depth start_url n) := rfl

theorem crawlStep_cons (links : String → List String) (max_depth : Nat)
    (d : List String) (u : String) (k : Nat) (rest : List (String × Nat)) :
    crawlStep links max_depth ⟨d, (u, k) :: rest⟩ =
      if u ∈ d ∨ max_depth < k then ⟨d, rest⟩
      else ⟨d ++ [u], rest ++ ((links u).filter
        (fun l => decide (l ∉ d ++ [u]))).map (fun l => (l, k + 1))⟩ := rfl

theorem crawlStep_state_eq (links : String → List String) (max_depth : Nat)
    (s : CrawlState) : crawlStep links max_depth s =
      match s.queue with
      | [] => s
      | (u, k) :: rest =>
        if u ∈ s.discovered ∨ max_depth < k then ⟨s.discovered, rest⟩
        else ⟨s.discovered ++ [u], rest ++ ((links u).filter
          (fun l => decide (l ∉ s.discovered ++ [u]))).map (fun l => (l, k + 1))⟩ := by
  obtain ⟨d, q⟩ := s
  cases q with
  | nil => rfl
  | cons e rest =>
    obtain ⟨u, k⟩ := e
    exact crawlStep_cons links max_depth d u k rest

theorem crawlSeq_absorb (links : String → List String) (max_depth : Nat)
    (start_url : String) (n : Nat)
    (h : (crawlSeq links max_depth start_url n).queue = []) :
    ∀ m, n ≤ m → crawlSeq links max_depth start_url m =
      crawlSeq links max_depth start_url n := by
  intro m hm
  induction m, hm using Nat.le_induction with
  | base => rfl
  | succ m _ ih =>
    rw [crawlSeq_succ, ih, crawlStep_state_eq, h]

theorem crawlStep_disc_mono (links : String → List String) (max_depth : Nat)
    (s : CrawlState) : ∀ v ∈ s.discovered, v ∈ (crawlStep links max_depth s).discovered := by
  obtain ⟨d, q⟩ := s
  intro v hv
  cases q with
  | nil => exact hv
  | cons e rest =>
    obtain ⟨u, k⟩ := e
    rw [crawlStep_cons]
    split_ifs with h
    · exact hv
    · exact List.mem_append.mpr (Or.inl hv)

theorem crawlSeq_disc_mono (links : String → List String) (max_depth : Nat)
    (start_url : String) (n m : Nat) (hnm : n ≤ m) :
    ∀ v ∈ (crawlSeq links max_depth start_url n).discovered,
      v ∈ (crawlSeq links max_depth start_url m).discovered := by
  induction m, hnm using Nat.le_induction with
  | base => exact fun v hv => hv
  | succ m _ ih =>
    intro v hv
    rw [crawlSeq_succ]
    exact crawlStep_disc_mono links max_depth _ v (ih v hv)

theorem crawlStep_queue_shape (links : String → List String) (max_depth : Nat)
    (s : CrawlState) (e : String × Nat) (q : List (String × Nat))
    (hq : s.queue = e :: q) :
    ∃ extra, (crawlStep links max_depth s).queue = q ++ extra := by
  obtain ⟨d, q0⟩ := s
  replace hq : q0 = e :: q := hq
  subst hq
  obtain ⟨u, k⟩ := e
  rw [crawlStep_cons]
  split_ifs with h
  · exact ⟨[], (List.append_nil q).symm⟩
  · exact ⟨_, rfl⟩

theorem crawlSeq_queue_drop (links : String → List String) (max_depth : Nat)
    (start_url : String) (n : Nat) :
    ∀ p : Nat, (crawlSeq links max_depth start_url n).queue.drop p ≠ [] →
      ∃ extra, (crawlSeq links max_depth start_url (n + p)).queue =
        (crawlSeq links max_depth start_url n).queue.drop p ++ extra := by
  intro p
  induction p with
  | zero =>
    intro _
    exact ⟨[], (List.append_nil _).symm⟩
  | succ p ih =>
    intro hne
    have hplt : p < (crawlSeq links max_depth start_url n).queue.length := by
      by_contra hge
      rw [not_lt] at hge
      have : (crawlSeq links max_depth start_url n).queue.drop (p + 1) = [] :=
        List.drop_eq_nil_iff.mpr (by omega)
      exact hne this
    have hpne : (crawlSeq links max_depth start_url n).queue.drop p ≠ [] := by
      intro hc
      rw [List.drop_eq_nil_iff] at hc
      omega
    obtain ⟨extra, hex⟩ := ih hpne
    rw [List.drop_eq_getElem_cons hplt] at hex
    obtain ⟨extra2, hex2⟩ := crawlStep_queue_shape links max_depth
      (crawlSeq links max_depth start_url (n + p))
      ((crawlSeq links max_depth start_url n).queue[p])
      ((crawlSeq links max_depth start_url n).queue.drop (p + 1) ++ extra)
      (by rw [hex, List.cons_append])
    refine ⟨extra ++ extra2, ?_⟩
    have hs : crawlSeq links max_depth start_url (n + (p + 1)) =
        crawlStep links max_depth (crawlSeq links max_depth start_url (n + p)) := rfl
    rw [hs, hex2, List.append_assoc]

theorem queue_mem_future_head (links : String → List String) (max_depth : Nat)
    (start_url : String) (n : Nat) (e : String × Nat)
    (he : e ∈ (crawlSeq links max_depth start_url n).queue) :
    ∃ m t, n ≤ m ∧ (crawlSeq links max_depth start_url m).queue = e :: t := by
  obtain ⟨p, hp, hpe⟩ := List.mem_iff_getElem.mp he
  have hne : (crawlSeq links max_depth start_url n).queue.drop p ≠ [] := by
    intro hc
    rw [List.drop_eq_nil_iff] at hc
    omega
  obtain ⟨extra, hex⟩ := crawlSeq_queue_drop links max_depth start_url n p hne
  rw [List.drop_eq_getElem_cons hp, hpe] at hex
  exact ⟨n + p, _, Nat.le_add_right n p, hex⟩

theorem crawlStep_at_nil (links : String → List String) (max_depth : Nat)
    (s : CrawlState) (hq : s.queue = []) : crawlStep links max_depth s = s := by
  obtain ⟨d, q0⟩ := s
  replace hq : q0 = [] := hq
  subst hq
  rfl

theorem crawlStep_at_cons (links : String → List String) (max_depth : Nat)
    (s : CrawlState) (u : String) (k : Nat) (rest : List (String × Nat))
    (hq : s.queue = (u, k) :: rest) :
    crawlStep links max_depth s =
      if u ∈ s.discovered ∨ max_depth < k then ⟨s.discovered, rest⟩
      else ⟨s.discovered ++ [u], rest ++ ((links u).filter
        (fun l => decide (l ∉ s.discovered ++ [u]))).map (fun l => (l, k + 1))⟩ := by
  obtain ⟨d, q0⟩ := s
  replace hq : q0 = (u, k) :: rest := hq
  subst hq
  exact crawlStep_cons links max_depth d u k rest

theorem head_discovered (links : String → List String) (max_depth : Nat)
    (start_url : String) (n : Nat) (u : String) (k : Nat) (rest : List (String × Nat))
    (hq : (crawlSeq links max_depth start_url n).queue = (u, k) :: rest)
    (hk : k ≤ max_depth) :
    u ∈ (crawlSeq links max_depth start_url (n + 1)).discovered := by
  rw [crawlSeq_succ, crawlStep_at_cons links max_depth _ u k rest hq]
  split_ifs with h
  · rcases h with h | h
    · exact h
    · omega
  · exact List.mem_append.mpr (Or.inr (List.mem_singleton.mpr rfl))

theorem head_links_covered (links : String → List String) (max_depth : Nat)
    (start_url : String) (n : Nat) (u : String) (k : Nat) (rest : List (String × Nat))
    (hq : (crawlSeq links max_depth start_url n).queue = (u, k) :: rest)
    (hk : k ≤ max_depth)
    (hnd : u ∉ (crawlSeq links max_depth start_url n).discovered) :
    ∀ l ∈ links u, l ∈ (crawlSeq links max_depth start_url (n + 1)).discovered ∨
      (l, k + 1) ∈ (crawlSeq links max_depth start_url (n + 1)).queue := by
  intro l hl
  rw [crawlSeq_succ, crawlStep_at_cons links max_depth _ u k rest hq]
  rw [if_neg (by push_neg; exact ⟨hnd, by omega⟩)]
  simp only
  by_cases hld : l ∈ (crawlSeq links max_depth start_url n).discovered ++ [u]
  · exact Or.inl hld
  · refine Or.inr (List.mem_append.mpr (Or.inr ?_))
    rw [List.mem_map]
    refine ⟨l, ?_, rfl⟩
    rw [List.mem_filter]
    exact ⟨hl, by simpa using hld⟩

theorem discovered_origin (links : String → List String) (max_depth : Nat)
    (start_url : String) :
    ∀ n, ∀ u ∈ (crawlSeq links max_depth start_url n).discovered,
      ∃ m k rest, m < n ∧
        (crawlSeq links max_depth start_url m).queue = (u, k) :: rest ∧
        u ∉ (crawlSeq links max_depth start_url m).discovered ∧
        k ≤ max_depth := by
  intro n
  induction n with
  | zero =>
    intro u hu
    simp [crawlSeq] at hu
  | succ n ih =>
    intro u hu
    rcases hqn : (crawlSeq links max_depth start_url n).queue with _ | ⟨⟨u0, k0⟩, rest⟩
    · rw [crawlSeq_succ, crawlStep_at_nil links max_depth _ hqn] at hu
      obtain ⟨m, k, r, hlt, h1, h2, h3⟩ := ih u hu
      exact ⟨m, k, r, by omega, h1, h2, h3⟩
    · rw [crawlSeq_succ, crawlStep_at_cons links max_depth _ u0 k0 rest hqn] at hu
      split_ifs at hu with hskip
      · obtain ⟨m, k, r, hlt, h1, h2, h3⟩ := ih u hu
        exact ⟨m, k, r, by omega, h1, h2, h3⟩
      · simp only at hu
        rcases List.mem_append.mp hu with hu | hu
        · obtain ⟨m, k, r, hlt, h1, h2, h3⟩ := ih u hu
          exact ⟨m, k, r, by omega, h1, h2, h3⟩
        · rw [List.mem_singleton] at hu
          subst hu
          push_neg at hskip
          exact ⟨n, k0, rest, by omega, hqn, hskip.1, by omega⟩

theorem pairwise_of_mem {α : Type} {R : α → α → Prop} :
    ∀ l : List α, (∀ a ∈ l, ∀ b ∈ l, R a b) → l.Pairwise R := by
  intro l
  induction l with
  | nil => intro _; exact List.Pairwise.nil
  | cons a t ih =>
    intro h
    refine List.Pairwise.cons ?_ (ih ?_)
    · exact fun b hb => h a (List.mem_cons_self _ _) b (List.mem_cons_of_mem _ hb)
    · exact fun x hx y hy => h x (List.mem_cons_of_mem _ hx) y (List.mem_cons_of_mem _ hy)

/-- The two-level depth invariant of a FIFO breadth-first queue: along the
queue, depths are nondecreasing and never exceed an earlier depth plus
one. -/
def QueueInv (q : List (String × Nat)) : Prop :=
  q.Pairwise (fun a b => a.2 ≤ b.2 ∧ b.2 ≤ a.2 + 1)

theorem queueInv_holds (links : String → List String) (max_depth : Nat)
    (start_url : String) :
    ∀ n, QueueInv (crawlSeq links max_depth start_url n).queue := by
  intro n
  induction n with
  | zero =>
    exact List.pairwise_singleton _ _
  | succ n ih =>
    rcases hqn : (crawlSeq links max_depth start_url n).queue with _ | ⟨⟨u0, k0⟩, rest⟩
    · rw [crawlSeq_succ, crawlStep_at_nil links max_depth _ hqn, hqn]
      exact List.Pairwise.nil
    · rw [crawlSeq_succ, crawlStep_at_cons links max_depth _ u0 k0 rest hqn]
      rw [hqn] at ih
      have hrest : rest.Pairwise (fun a b => a.2 ≤ b.2 ∧ b.2 ≤ a.2 + 1) :=
        (List.pairwise_cons.mp ih).2
      have hhead : ∀ e ∈ rest, k0 ≤ e.2 ∧ e.2 ≤ k0 + 1 :=
        (List.pairwise_cons.mp ih).1
      split_ifs with hskip
      · exact hrest
      · unfold QueueInv
        simp only
        rw [List.pairwise_append]
        refine ⟨hrest, ?_, ?_⟩
        · apply pairwise_of_mem
          intro a ha b hb
          rw [List.mem_map] at ha hb
          obtain ⟨la, _, hla⟩ := ha
          obtain ⟨lb, _, hlb⟩ := hb
          rw [← hla, ← hlb]
          omega
        · intro a ha b hb
          rw [List.mem_map] at hb
          obtain ⟨lb, _, hlb⟩ := hb
          have := hhead a ha
          rw [← hlb]
          simp only
          omega

theorem head_depth_step (links : String → List String) (max_depth : Nat)
    (start_url : String) (n : Nat) (u : String) (k : Nat) (t : List (String × Nat))
    (hqn : (crawlSeq links max_depth start_url n).queue = (u, k) :: t)
    (u2 : String) (k2 : Nat) (t2 : List (String × Nat))
    (hqn2 : (crawlSeq links max_depth start_url (n + 1)).queue = (u2, k2) :: t2) :
    k ≤ k2 := by
  have hinv := queueInv_holds links max_depth start_url n
  rw [hqn] at hinv
  have hhead : ∀ e ∈ t, k ≤ e.2 ∧ e.2 ≤ k + 1 := (List.pairwise_cons.mp hinv).1
  rw [crawlSeq_succ, crawlStep_at_cons links max_depth _ u k t hqn] at hqn2
  split_ifs at hqn2 with hskip
  · simp only at hqn2
    have : (u2, k2) ∈ t := by
      rw [hqn2]
      exact List.mem_cons_self _ _
    exact (hhead _ this).1
  · simp only at hqn2
    have hmem : (u2, k2) ∈ t ++ ((links u).filter
        (fun l => decide (l ∉ (crawlSeq links max_depth start_url n).discovered ++ [u]))).map
        (fun l => (l, k + 1)) := by
      rw [hqn2]
      exact List.mem_cons_self _ _
    rcases List.mem_append.mp hmem with hmem | hmem
    · exact (hhead _ hmem).1
    · rw [List.mem_map] at hmem
      obtain ⟨l, _, hl⟩ := hmem
      have : k + 1 = k2 := by
        have := congrArg Prod.snd hl
        simpa using this
      omega

theorem head_depth_mono (links : String → List String) (max_depth : Nat)
    (start_url : String) (n : Nat) (u : String) (k : Nat) (t : List (String × Nat))
    (hn : (crawlSeq links max_depth start_url n).queue = (u, k) :: t) :
    ∀ m, n ≤ m → ∀ u2 k2 t2,
      (crawlSeq links max_depth start_url m).queue = (u2, k2) :: t2 → k ≤ k2 := by
  intro m hnm
  induction m, hnm using Nat.le_induction with
  | base =>
    intro u2 k2 t2 hm
    rw [hn] at hm
    have := congrArg Prod.snd (List.head_eq_of_cons_eq hm)
    simp only at this
    omega
  | succ m hm ih =>
    intro u2 k2 t2 hm2
    rcases hqm : (crawlSeq links max_depth start_url m).queue with _ | ⟨⟨u3, k3⟩, t3⟩
    · rw [crawlSeq_succ, crawlStep_at_nil links max_depth _ hqm, hqm] at hm2
      exact absurd hm2 (by simp)
    · have h1 : k ≤ k3 := ih u3 k3 t3 hqm
      have h2 : k3 ≤ k2 := head_depth_step links max_depth start_url m u3 k3 t3 hqm
        u2 k2 t2 hm2
      omega

theorem reach_succ {links : String → List String} {seed : String} {n : Nat} {v : String}
    (h : ReachWithin links seed n v) : ReachWithin links seed (n + 1) v := by
  induction h with
  | refl n => exact ReachWithin.refl (n + 1)
  | step n u v _ hv ih => exact ReachWithin.step (n + 1) u v ih hv

theorem reach_mono {links : String → List String} {seed : String} {n : Nat} {v : String}
    (h : ReachWithin links seed n v) : ∀ m, n ≤ m → ReachWithin links seed m v := by
  intro m hnm
  induction m, hnm using Nat.le_induction with
  | base => exact h
  | succ m _ ih => exact reach_succ ih

theorem crawl_sound (links : String → List String) (max_depth : Nat)
    (start_url : String) :
    ∀ n, (∀ v ∈ (crawlSeq links max_depth start_url n).discovered,
        ReachWithin links start_url max_depth v) ∧
      (∀ e ∈ (crawlSeq links max_depth start_url n).queue,
        ReachWithin links start_url e.2 e.1) := by
  intro n
  induction n with
  | zero =>
    constructor
    · intro v hv
      simp [crawlSeq] at hv
    · intro e he
      simp only [crawlSeq, List.mem_singleton] at he
      subst he
      exact ReachWithin.refl 0
  | succ n ih =>
    rcases hqn : (crawlSeq links max_depth start_url n).queue with _ | ⟨⟨u0, k0⟩, rest⟩
    · rw [crawlSeq_succ, crawlStep_at_nil links max_depth _ hqn]
      exact ih
    · rw [crawlSeq_succ, crawlStep_at_cons links max_depth _ u0 k0 rest hqn]
      have hqrest : ∀ e ∈ rest, ReachWithin links start_url e.2 e.1 :=
        fun e he => ih.2 e (hqn ▸ List.mem_cons_of_mem _ he)
      have hu0 : ReachWithin links start_url k0 u0 :=
        ih.2 (u0, k0) (hqn ▸ List.mem_cons_self _ _)
      split_ifs with hskip
      · exact ⟨ih.1, hqrest⟩
      · push_neg at hskip
        constructor
        · intro v hv
          rcases List.mem_append.mp hv with hv | hv
          · exact ih.1 v hv
          · rw [List.mem_singleton] at hv
            subst hv
            exact reach_mono hu0 max_depth (by omega)
        · intro e he
          rcases List.mem_append.mp he with he | he
          · exact hqrest e he
          · rw [List.mem_map] at he
            obtain ⟨l, hl, hle⟩ := he
            rw [List.mem_filter] at hl
            rw [← hle]
            exact ReachWithin.step k0 u0 l hu0 hl.1

theorem reach_added (links : String → List String) (max_depth : Nat)
    (start_url : String) :
    ∀ (d : Nat) (v : String), ReachWithin links start_url d v → d ≤ max_depth →
      ∃ m k rest, (crawlSeq links max_depth start_url m).queue = (v, k) :: rest ∧
        v ∉ (crawlSeq links max_depth start_url m).discovered ∧ k ≤ d := by
  intro d v hreach
  induction hreach with
  | refl n =>
    intro _
    exact ⟨0, 0, [], rfl, by simp [crawlSeq], by omega⟩
  | step n u v hru hv ih =>
    intro hd
    obtain ⟨m, k, rest, hq, hnd, hk⟩ := ih (by omega)
    have hkmax : k ≤ max_depth := by omega
    rcases head_links_covered links max_depth start_url m u k rest hq hkmax hnd v hv with
      hcase | hcase
    · -- v already discovered one step after u was processed
      obtain ⟨m3, k3, r3, hm3lt, hq3, hnd3, _⟩ :=
        discovered_origin links max_depth start_url (m + 1) v hcase
      have hk3 : k3 ≤ k :=
        head_depth_mono links max_depth start_url m3 v k3 r3 hq3 m (by omega) u k rest hq
      exact ⟨m3, k3, r3, hq3, hnd3, by omega⟩
    · -- v sits in the queue at depth k+1; it is dequeued later
      obtain ⟨m2, t2, hm2ge, hq2⟩ :=
        queue_mem_future_head links max_depth start_url (m + 1) (v, k + 1) hcase
      by_cases hvd : v ∈ (crawlSeq links max_depth start_url m2).discovered
      · obtain ⟨m3, k3, r3, hm3lt, hq3, hnd3, _⟩ :=
          discovered_origin links max_depth start_url m2 v hvd
        have hk3 : k3 ≤ k + 1 :=
          head_depth_mono links max_depth start_url m3 v k3 r3 hq3 m2 (by omega)
            v (k + 1) t2 hq2
        exact ⟨m3, k3, r3, hq3, hnd3, by omega⟩
      · exact ⟨m2, k + 1, t2, hq2, hvd, by omega⟩

/-- Claim C5: the `while to_visit` loop of `crawl_recursively` processes
the queue in FIFO order (the head is dequeued, new links are appended at
the back), a dequeued entry is skipped — discovering nothing — exactly
when its URL is already in `all_urls` or its depth exceeds `max_depth`,
and when the queue drains the discovered set is exactly the set of URLs
reachable from the seed within `max_depth` link steps. -/
theorem claim_C5 (links : String → List String) (max_depth : Nat)
    (start_url : String) (fuel : Nat)
    (hfin : (crawlSeq links max_depth start_url fuel).queue = []) :
    (∀ v, v ∈ (crawlSeq links max_depth start_url fuel).discovered ↔
      ReachWithin links start_url max_depth v) ∧
    (∀ n u k rest, (crawlSeq links max_depth start_url n).queue = (u, k) :: rest →
      (∃ extra, (crawlSeq links max_depth start_url (n + 1)).queue = rest ++ extra) ∧
      ((crawlSeq links max_depth start_url (n + 1)).discovered =
          (crawlSeq links max_depth start_url n).discovered ↔
        (u ∈ (crawlSeq links max_depth start_url n).discovered ∨ max_depth < k))) := by
  constructor
  · intro v
    constructor
    · exact fun hv => (crawl_sound links max_depth start_url fuel).1 v hv
    · intro hreach
      obtain ⟨m, k, rest, hq, hnd, hk⟩ :=
        reach_added links max_depth start_url max_depth v hreach (by omega)
      have hmfuel : m < fuel := by
        by_contra hge
        rw [not_lt] at hge
        rw [crawlSeq_absorb links max_depth start_url fuel hfin m hge, hfin] at hq
        exact absurd hq (by simp)
      have hv1 : v ∈ (crawlSeq links max_depth start_url (m + 1)).discovered :=
        head_discovered links max_depth start_url m v k rest hq hk
      exact crawlSeq_disc_mono links max_depth start_url (m + 1) fuel (by omega) v hv1
  · intro n u k rest hq
    constructor
    · rw [crawlSeq_succ]
      exact crawlStep_queue_shape links max_depth _ (u, k) rest hq
    · rw [crawlSeq_succ, crawlStep_at_cons links max_depth _ u k rest hq]
      split_ifs with hskip
      · simp only [iff_true, hskip]
      · simp only [hskip, iff_false]
        intro hc
        have hlen := congrArg List.length hc
        simp at hlen

/-- The link graph of the spec's scenario: page `a` links to `b` and `c`,
page `b` links to `d`, nothing else links anywhere. -/
def scenarioLinks : String → List String := fun u =>
  if u = "https://x.dev/a" then ["https://x.dev/b", "https://x.dev/c"]
  else if u = "https://x.dev/b" then ["https://x.dev/d"] else []

/-- Witness for C5: the scenario run (seed `a`, `max_depth = 1`) drains
its queue within 10 steps, discovers exactly `{a, b, c}`, and `d` — at
depth 2 — is not reachable within one step. -/
theorem claim_C5_witness :
    (crawlSeq scenarioLinks 1 "https://x.dev/a" 10).queue = [] ∧
    (crawlSeq scenarioLinks 1 "https://x.dev/a" 10).discovered =
      ["https://x.dev/a", "https://x.dev/b", "https://x.dev/c"] ∧
    ("https://x.dev/b" ∈ (crawlSeq scenarioLinks 1 "https://x.dev/a" 10).discovered ↔
      ReachWithin scenarioLinks "https://x.dev/a" 1 "https://x.dev/b") ∧
    ¬ ReachWithin scenarioLinks "https://x.dev/a" 1 "https://x.dev/d" := by
  refine ⟨by decide, by decide, ?_, ?_⟩
  · exact (claim_C5 scenarioLinks 1 "https://x.dev/a" 10 (by decide)).1 "https://x.dev/b"
  · intro hr
    have hd := ((claim_C5 scenarioLinks 1 "https://x.dev/a" 10 (by decide)).1
      "https://x.dev/d").mpr hr
    revert hd
    decide

/-! ## Seed handling and extraction failure: claims C6 and C7 -/

theorem dedupFirst_subset : ∀ (xs seen : List String), ∀ l ∈ dedupFirst seen xs, l ∈ xs := by
  intro xs
  induction xs with
  | nil => intro seen l hl; simp [dedupFirst] at hl
  | cons x t ih =>
    intro seen l hl
    unfold dedupFirst at hl
    split_ifs at hl with hx
    · exact List.mem_cons_of_mem _ (ih seen l hl)
    · rcases List.mem_cons.mp hl with hl | hl
      · exact hl ▸ List.mem_cons_self _ _
      · exact List.mem_cons_of_mem _ (ih (x :: seen) l hl)

/-- Every URL returned by `extract_links_from_page` was normalized
against the page URL and passed the skip filter. -/
theorem extract_links_filtered {Soup : Type} (h : HtmlLib Soup) (lib : UrlLib)
    (visited : List String) (base_url : String) (skip_patterns : List String)
    (url : String) (selector : Option String) :
    ∀ l ∈ extract_links_from_page h lib visited base_url skip_patterns url selector,
      should_skip visited base_url skip_patterns l = false ∧
      ∃ href, l = normalize_url lib href url := by
  intro l hl
  unfold extract_links_from_page at hl
  split at hl
  case h_1 links heq =>
    unfold extract_links_body at heq
    split at heq
    case h_1 => exact absurd heq (by simp)
    case h_2 =>
      split at heq
      case h_1 => exact absurd heq (by simp)
      case h_2 soup =>
        split at heq
        case h_1 =>
          rw [show links = [] from by
            injection heq with h2; exact h2.symm] at hl
          simp at hl
        case h_2 container _ =>
          replace heq : dedupFirst []
              (((h.hrefs container).map (fun href => normalize_url lib href url)).filter
                (fun absolute_url =>
                  !should_skip visited base_url skip_patterns absolute_url)) = links := by
            injection heq
          rw [← heq] at hl
          have hmem := dedupFirst_subset _ [] l hl
          rw [List.mem_filter] at hmem
          obtain ⟨hmap, hpass⟩ := hmem
          rw [List.mem_map] at hmap
          obtain ⟨href, _, hhref⟩ := hmap
          refine ⟨?_, href, hhref.symm⟩
          rw [Bool.not_eq_true'] at hpass
          exact hpass
  case h_2 => simp at hl

/-- Claim C6 as stated is false: a seed that the skip filter would
exclude (here: outside the configured base domain `https://x.dev`) is
still visited and recorded as discovered by the traversal. -/
theorem claim_C6_counterexample :
    should_skip [] "https://x.dev" [] "https://other.org/x" = true ∧
    (crawlSeq (fun _ => []) 0 "https://other.org/x" 2).discovered =
      ["https://other.org/x"] := by
  refine ⟨by decide, by decide⟩

/-- Claim C6, amended: the start URL is neither normalized nor checked
against the skip filter — the first loop iteration unconditionally
records it as discovered and fetches it, whatever the filter would say —
while every link discovered on a page is normalized against that page's
URL and passed through `should_skip`. -/
theorem claim_C6 :
    (∀ (links : String → List String) (max_depth : Nat) (start_url : String),
      (crawlSeq links max_depth start_url 1).discovered = [start_url]) ∧
    (∀ (links : String → List String) (max_depth : Nat) (start_url : String)
      (fuel : Nat), 1 ≤ fuel →
      start_url ∈ (crawlSeq links max_depth start_url fuel).discovered) ∧
    (∀ (Soup : Type) (h : HtmlLib Soup) (lib : UrlLib) (visited : List String)
      (base_url : String) (skip_patterns : List String) (url : String)
      (selector : Option String),
      ∀ l ∈ extract_links_from_page h lib visited base_url skip_patterns url selector,
        should_skip visited base_url skip_patterns l = false ∧
        ∃ href, l = normalize_url lib href url) := by
  have hone : ∀ (links : String → List String) (max_depth : Nat) (start_url : String),
      (crawlSeq links max_depth start_url 1).discovered = [start_url] := by
    intro links max_depth start_url
    rw [show crawlSeq links max_depth start_url 1 =
      crawlStep links max_depth ⟨[], [(start_url, 0)]⟩ from rfl]
    rw [crawlStep_cons]
    rw [if_neg (by simp)]
    rfl
  refine ⟨hone, ?_, ?_⟩
  · intro links max_depth start_url fuel hfuel
    refine crawlSeq_disc_mono links max_depth start_url 1 fuel hfuel start_url ?_
    rw [hone]
    exact List.mem_singleton.mpr rfl
  · exact fun Soup h lib visited base pats url sel =>
      extract_links_filtered h lib visited base pats url sel

/-- Witness for C6 (amended): the skip-excluded seed of the
counterexample is indeed discovered after the queue drains. -/
theorem claim_C6_witness :
    "https://other.org/x" ∈ (crawlSeq (fun _ => []) 0 "https://other.org/x" 2).discovered :=
  claim_C6.2.1 (fun _ => []) 0 "https://other.org/x" 2 (by decide)

/-- Claim C7: link extraction never surfaces a failure to the traverser —
a fetch or parse error, and a scoped selector that matches nothing, all
yield the empty link list — and a page yielding zero links is simply
recorded as visited while the loop continues with the remaining queue; a
URL already in the discovered set is skipped on dequeue, so the failing
page is never retried. -/
theorem claim_C7 :
    (∀ (Soup : Type) (h : HtmlLib Soup) (lib : UrlLib) (visited : List String)
      (base_url : String) (skip_patterns : List String) (url : String)
      (selector : Option String) (e : String),
      extract_links_body h lib visited base_url skip_patterns url selector = .error e →
      extract_links_from_page h lib visited base_url skip_patterns url selector = []) ∧
    (∀ (Soup : Type) (h : HtmlLib Soup) (lib : UrlLib) (visited : List String)
      (base_url : String) (skip_patterns : List String) (url : String)
      (sel : String) (html : String) (soup : Soup),
      h.fetch url = .ok html → h.parse html = .ok soup →
      h.selectOne soup sel = none →
      extract_links_from_page h lib visited base_url skip_patterns url (some sel) = []) ∧
    (∀ (links : String → List String) (max_depth : Nat) (disc : List String)
      (u : String) (k : Nat) (rest : List (String × Nat)),
      links u = [] → k ≤ max_depth → u ∉ disc →
      crawlStep links max_depth ⟨disc, (u, k) :: rest⟩ = ⟨disc ++ [u], rest⟩) ∧
    (∀ (links : String → List String) (max_depth : Nat) (s : CrawlState)
      (u : String) (k : Nat) (rest : List (String × Nat)),
      s.queue = (u, k) :: rest → u ∈ s.discovered →
      crawlStep links max_depth s = ⟨s.discovered, rest⟩) := by
  refine ⟨?_, ?_, ?_, ?_⟩
  · intro Soup h lib visited base pats url sel e herr
    unfold extract_links_from_page
    rw [herr]
  · intro Soup h lib visited base pats url sel html soup hfetch hparse hsel
    unfold extract_links_from_page extract_links_body
    simp [hfetch, hparse, hsel]
  · intro links max_depth disc u k rest hlinks hk hnd
    rw [crawlStep_cons, if_neg (by push_neg; exact ⟨hnd, by omega⟩)]
    rw [hlinks]
    simp
  · intro links max_depth s u k rest hq hmem
    rw [crawlStep_at_cons links max_depth s u k rest hq, if_pos (Or.inl hmem)]

/-- A concrete collaborator set whose fetch always fails. -/
def failingHtml : HtmlLib Unit where
  fetch := fun _ => .error "connection reset"
  parse := fun _ => .ok ()
  selectOne := fun _ _ => none
  hrefs := fun _ => []

/-- Witness for C7: a failing fetch yields zero links, and processing a
zero-link page marks it visited and continues with the rest of the
queue. -/
theorem claim_C7_witness :
    extract_links_from_page failingHtml pyUrlLib [] "https://x.dev" []
      "https://x.dev/a" none = [] ∧
    crawlStep (fun _ => []) 3 ⟨[], [("https://x.dev/a", 0)]⟩ =
      ⟨["https://x.dev/a"], []⟩ :=
  ⟨claim_C7.1 Unit failingHtml pyUrlLib [] "https://x.dev" [] "https://x.dev/a" none
      "connection reset" rfl,
    claim_C7.2.2.1 (fun _ => []) 3 [] "https://x.dev/a" 0 [] rfl (by decide) (by decide)⟩
